import Mathlib

/-!
Verification of the NES CHR decoder (`nes_chr_decode.py`).

The Python source is shallowly embedded: bytes are `Nat` (values < 256 in
practice), byte strings are `List Nat`, Python strings are `List Char`,
generators are Lean lists, and functions that can call `exit(...)` return
`Except String _`.  Machine arithmetic does not overflow anywhere in the
source (Python integers are unbounded), so `Nat`/`Int` model it exactly.
-/

namespace NesChr

/-- Character width in pixels (source constant `CHAR_WIDTH`). -/
def CHAR_WIDTH : Nat := 8

/-- Character height in pixels (source constant `CHAR_HEIGHT`). -/
def CHAR_HEIGHT : Nat := 8

/-- Bytes per character in CHR data (source constant `BYTES_PER_CHAR`). -/
def BYTES_PER_CHAR : Nat := 16

/-- Characters per row in the output image (source constant `CHARS_PER_ROW`). -/
def CHARS_PER_ROW : Nat := 16

/-- Loop of `decode_character_slice`: for `x` in `range(n)` append
`(loByte & 1) | ((hiByte & 1) << 1)` and right-shift both bytes.  The head of
the returned list is the pixel appended first (x = 0). -/
def decodeSliceLoop : Nat → Nat → Nat → List Nat
  | 0, _, _ => []
  | n + 1, loByte, hiByte =>
      ((loByte &&& 1) ||| ((hiByte &&& 1) <<< 1)) ::
        decodeSliceLoop n (loByte >>> 1) (hiByte >>> 1)

/-- Source `decode_character_slice(loByte, hiByte)`: decode one pixel row of
one character, least significant bits first, then return the pixels reversed
(`return reversed(pixels)`). -/
def decode_character_slice (loByte hiByte : Nat) : List Nat :=
  (decodeSliceLoop CHAR_WIDTH loByte hiByte).reverse

/-- Source `generate_character_rows(source)`: after measuring the size the
reader repeatedly reads `CHARS_PER_ROW * BYTES_PER_CHAR` bytes while
`source.tell() < size`; a read at offset `p` returns the bytes from `p` up to
at most `p + 256`, exactly like Python's `file.read`. -/
def generate_character_rows (source : List Nat) : List (List Nat) :=
  if source = [] then []
  else
    source.take (CHARS_PER_ROW * BYTES_PER_CHAR) ::
      generate_character_rows (source.drop (CHARS_PER_ROW * BYTES_PER_CHAR))
termination_by source.length
decreasing_by
  rename_i h
  have hpos : 0 < source.length := List.length_pos.mpr h
  have h256 : CHARS_PER_ROW * BYTES_PER_CHAR = 256 := rfl
  simp only [List.length_drop, h256]
  omega

/-- Body of the `charX` loop in `generate_pixel_rows`: fetch the low and high
byte of the current character slice and decode it.  Python list indexing
`chrData[i]` is embedded as `getD _ 0`; under the validated size
precondition every index is in bounds (claim C8), so the default is never
consulted. -/
def decode_slice_at (chrData : List Nat) (pixelY charX : Nat) : List Nat :=
  decode_character_slice
    (chrData.getD (charX * BYTES_PER_CHAR + pixelY) 0)
    (chrData.getD (charX * BYTES_PER_CHAR + pixelY + 8) 0)

/-- Scanlines produced from one character row by `generate_pixel_rows`: for
each `pixelY` in `range(CHAR_HEIGHT)`, the scanline obtained by concatenating
the decoded slices for `charX` in `range(CHARS_PER_ROW)`. -/
def chunk_pixel_rows (chrData : List Nat) : List (List Nat) :=
  (List.range CHAR_HEIGHT).map fun pixelY =>
    (List.range CHARS_PER_ROW).flatMap fun charX =>
      decode_slice_at chrData pixelY charX

/-- Source `generate_pixel_rows(source, settings)` as the list of yielded
scanline values (the contents of the `pixels` buffer at each yield). -/
def generate_pixel_rows (source : List Nat) : List (List Nat) :=
  (generate_character_rows source).flatMap chunk_pixel_rows

/-- RGB triple as returned by `decode_color_code` (components are Python
integers, hence `Int`). -/
abbrev RGB := Int × Int × Int

/-- Input-size validation in `parse_arguments`: `(charRowCount, remainder) =
divmod(size, CHARS_PER_ROW * BYTES_PER_CHAR)`, then
`exit("Error: invalid input file size.")` when `charRowCount == 0 or
remainder`.  On success the character-row count is available to `main`. -/
def validate_size (size : Nat) : Except String Nat :=
  let charRowCount := size / (CHARS_PER_ROW * BYTES_PER_CHAR)
  let remainder := size % (CHARS_PER_ROW * BYTES_PER_CHAR)
  if charRowCount = 0 ∨ remainder ≠ 0 then
    Except.error "Error: invalid input file size."
  else
    Except.ok charRowCount

/-- Output image as assembled by `main`: the metadata handed to `png.Writer`
plus the scanlines handed to `targetImage.write`. -/
structure OutputImage where
  width : Nat
  height : Nat
  bitdepth : Nat
  palette : List RGB
  rows : List (List Nat)
  deriving DecidableEq

/-- Data flow of `main` for a given source content and CLI palette: the size
is validated (inside `parse_arguments`, before any file is opened or
decoded); on success `png.Writer` gets width `CHARS_PER_ROW * CHAR_WIDTH`,
height `charRowCount * CHAR_HEIGHT`, bitdepth 2 and
`palette=settings["palette"]`, and the rows come from
`generate_pixel_rows`. -/
def run_decode (source : List Nat) (palette : List RGB) :
    Except String OutputImage :=
  match validate_size source.length with
  | Except.error e => Except.error e
  | Except.ok charRowCount =>
      Except.ok
        { width := CHARS_PER_ROW * CHAR_WIDTH
          height := charRowCount * CHAR_HEIGHT
          bitdepth := 2
          palette := palette
          rows := generate_pixel_rows source }

/-- Local variable `palette` in `main` (source line 146), a hardcoded
black/red/orange/white ramp.  It is assigned and never read. -/
def main_local_palette : List RGB :=
  [(0, 0, 0), (255, 0, 0), (255, 128, 0), (255, 255, 255)]

/-- Arguments passed to the `png.Writer` constructor in `main`. -/
structure PngWriterArgs where
  width : Nat
  height : Nat
  bitdepth : Nat
  palette : List RGB
  compression : Nat
  deriving DecidableEq

/-- Construction of the `png.Writer` in `main`: the `palette` keyword is
given `settings["palette"]` (the CLI-derived palette), not the local
`palette` variable. -/
def main_writer_args (settingsPalette : List RGB) (sourceSize : Nat) :
    PngWriterArgs :=
  { width := CHARS_PER_ROW * CHAR_WIDTH
    height := sourceSize / (CHARS_PER_ROW * BYTES_PER_CHAR) * CHAR_HEIGHT
    bitdepth := 2
    palette := settingsPalette
    compression := 9 }

/-- Cursor positions of the read loop of `generate_character_rows`: starting
from `pos`, while `source.tell() < size` each `source.read(256)` advances
the cursor to `min (pos + 256) size`; the list records the cursor after each
read. -/
def readLoopPositions (size pos : Nat) : List Nat :=
  if pos < size then
    min (pos + CHARS_PER_ROW * BYTES_PER_CHAR) size ::
      readLoopPositions size (min (pos + CHARS_PER_ROW * BYTES_PER_CHAR) size)
  else []
termination_by size - pos
decreasing_by
  rename_i h
  have h256 : CHARS_PER_ROW * BYTES_PER_CHAR = 256 := rfl
  rw [h256]
  omega

/-- Cursor trace of `generate_character_rows` over a stream of `size` bytes:
position 0 when the file is opened, `size` after `size = source.seek(0, 2)`,
0 after `source.seek(0)`, then the position after each `source.read`. -/
def reader_cursor_trace (size : Nat) : List Nat :=
  0 :: size :: 0 :: readLoopPositions size 0

/-- Mutations performed on the single `pixels` list object by
`generate_pixel_rows`. -/
inductive BufOp where
  | clear : BufOp
  | extend : List Nat → BufOp
  | yieldRow : BufOp
  deriving DecidableEq

/-- Mutation trace of `generate_pixel_rows`: for each chunk and each
`pixelY`, `pixels.clear()`, sixteen `pixels.extend(...)` (one per `charX`),
then `yield pixels`. -/
def generate_pixel_rows_ops (source : List Nat) : List BufOp :=
  (generate_character_rows source).flatMap fun chrData =>
    (List.range CHAR_HEIGHT).flatMap fun pixelY =>
      BufOp.clear ::
        ((List.range CHARS_PER_ROW).map fun charX =>
          BufOp.extend (decode_slice_at chrData pixelY charX)) ++
        [BufOp.yieldRow]

/-- Python heap as relevant to `generate_pixel_rows`: the contents of the
one list object bound to `pixels`, plus every other object (`rest`), which
the generator never touches. -/
structure PyHeap (α : Type) where
  pixelsBuf : List Nat
  rest : α

/-- Run a trace of buffer operations on a heap, returning the final heap and
the contents of the `pixels` object at each `yield`.  Every yield hands the
consumer the same single object, so dereferencing any retained yield later
shows the buffer contents current at that time. -/
def runBufOps {α : Type} : List BufOp → PyHeap α → PyHeap α × List (List Nat)
  | [], h => (h, [])
  | BufOp.clear :: ops, h => runBufOps ops { h with pixelsBuf := [] }
  | BufOp.extend s :: ops, h =>
      runBufOps ops { h with pixelsBuf := h.pixelsBuf ++ s }
  | BufOp.yieldRow :: ops, h =>
      let r := runBufOps ops h
      (r.1, h.pixelsBuf :: r.2)

/-- Clear, extend with each slice in turn, then yield: the mutations one
scanline contributes to the trace. -/
def rowOps (slices : List (List Nat)) : List BufOp :=
  BufOp.clear :: slices.map BufOp.extend ++ [BufOp.yieldRow]

/-- Per-scanline slice lists of the generator, before concatenation. -/
def rows_slices (source : List Nat) : List (List (List Nat)) :=
  (generate_character_rows source).flatMap fun chrData =>
    (List.range CHAR_HEIGHT).map fun pixelY =>
      (List.range CHARS_PER_ROW).map fun charX =>
        decode_slice_at chrData pixelY charX

/-- Value of an ASCII hexadecimal digit, as accepted by Python's
`int(_, 16)`. -/
def hexDigitVal (c : Char) : Option Nat :=
  if 48 ≤ c.toNat ∧ c.toNat ≤ 57 then some (c.toNat - 48)
  else if 97 ≤ c.toNat ∧ c.toNat ≤ 102 then some (c.toNat - 97 + 10)
  else if 65 ≤ c.toNat ∧ c.toNat ≤ 70 then some (c.toNat - 65 + 10)
  else none

/-- A character is a hexadecimal digit (0-9, a-f, A-F). -/
def isHexDigitChar (c : Char) : Bool :=
  (hexDigitVal c).isSome

/-- Whitespace stripped by CPython's `int(str, base)` before parsing:
space, \t, \n, \x0b, \x0c, \r, \x85 and \xa0 (the model covers characters
below U+0300; higher Unicode space/digit characters do not occur in CLI hex
color arguments). -/
def isPySpace (c : Char) : Bool :=
  c.toNat = 32 ∨ c.toNat = 9 ∨ c.toNat = 10 ∨ c.toNat = 11 ∨
    c.toNat = 12 ∨ c.toNat = 13 ∨ c.toNat = 133 ∨ c.toNat = 160

/-- Leading and trailing whitespace stripping performed by `int()`. -/
def stripPySpaces (s : List Char) : List Char :=
  (((s.dropWhile fun c => isPySpace c).reverse.dropWhile
    fun c => isPySpace c)).reverse

/-- Optional sign accepted by `int()`: returns the sign factor and the rest
of the string. -/
def splitSign : List Char → Int × List Char
  | [] => (1, [])
  | c :: r =>
      if c = '+' then (1, r)
      else if c = '-' then (-1, r)
      else (1, c :: r)

/-- After the `0x`/`0X` prefix, `int()` allows one underscore before the
first digit. -/
def stripUnderscoreAfterMarker : List Char → List Char
  | '_' :: r => r
  | t => t

/-- Optional `0x`/`0X` prefix accepted by `int(_, 16)`. -/
def stripHexMarker (t : List Char) : List Char :=
  match t with
  | c0 :: c1 :: r =>
      if c0 = '0' ∧ (c1 = 'x' ∨ c1 = 'X') then stripUnderscoreAfterMarker r
      else t
  | _ => t

/-- Digit run of `int(_, 16)`: hexadecimal digits with single underscores
allowed only between digits.  `acc` is the value of the digits consumed so
far and `prevUnderscore` records whether the previous character was an
underscore. -/
def parseHexRun (acc : Nat) (prevUnderscore : Bool) : List Char → Option Nat
  | [] => if prevUnderscore then none else some acc
  | c :: rest =>
      if c = '_' then
        if prevUnderscore then none else parseHexRun acc true rest
      else
        match hexDigitVal c with
        | some d => parseHexRun (16 * acc + d) false rest
        | none => none

/-- Digit part of `int(_, 16)`: at least one hexadecimal digit, then a digit
run. -/
def parseHexBody : List Char → Option Nat
  | [] => none
  | c :: rest =>
      match hexDigitVal c with
      | some d => parseHexRun d false rest
      | none => none

/-- CPython's `int(s, 16)` on ASCII strings: strip surrounding whitespace,
an optional sign, an optional `0x`/`0X` prefix, then parse a non-empty
underscore-separated hexadecimal digit run; `none` models the `ValueError`
raised for malformed literals. -/
def pyIntBase16 (s : List Char) : Option Int :=
  let t := stripPySpaces s
  let st := splitSign t
  (parseHexBody (stripHexMarker st.2)).map fun v => st.1 * (v : Int)

/-- Source `decode_color_code(color)`: raise `ValueError` when
`len(color) != 6`, convert with `int(color, 16)` (whose `ValueError` is
caught by the same handler, producing `exit("Error: invalid color code.")`),
then split the value as `red = color >> 16`, `green = (color >> 8) & 0xff`,
`blue = color & 0xff`.  Python's `>>` on a negative integer is an arithmetic
shift (floor), which is exactly `Int`'s `>>>`; `&` is `Int.land` (two's
complement). -/
def decode_color_code (color : List Char) : Except String RGB :=
  if color.length ≠ 6 then Except.error "Error: invalid color code."
  else
    match pyIntBase16 color with
    | none => Except.error "Error: invalid color code."
    | some c =>
        Except.ok (c >>> (16 : Int), Int.land (c >>> (8 : Int)) 0xff,
          Int.land c 0xff)

theorem decodeSliceLoop_eq_map (n : Nat) : ∀ lo hi : Nat,
    decodeSliceLoop n lo hi =
      (List.range n).map
        (fun x => ((lo >>> x) &&& 1) ||| (((hi >>> x) &&& 1) <<< 1)) := by
  induction n with
  | zero => intro lo hi; rfl
  | succ n ih =>
      intro lo hi
      rw [decodeSliceLoop, List.range_succ_eq_map, List.map_cons, List.map_map]
      refine congrArg₂ _ (by simp) ?_
      rw [ih (lo >>> 1) (hi >>> 1)]
      refine congrArg (fun g => List.map g (List.range n)) (funext fun x => ?_)
      simp only [Function.comp_apply, Nat.succ_eq_add_one,
        Nat.shiftRight_succ_inside, Nat.shiftRight_zero]

theorem decodeSliceLoop_length (n lo hi : Nat) :
    (decodeSliceLoop n lo hi).length = n := by
  rw [decodeSliceLoop_eq_map]; simp

theorem decode_character_slice_length (lo hi : Nat) :
    (decode_character_slice lo hi).length = 8 := by
  unfold decode_character_slice
  rw [List.length_reverse, decodeSliceLoop_length]
  rfl

theorem shiftRight_and_one_eq (m i : Nat) :
    (m >>> i) &&& 1 = (m.testBit i).toNat := by
  rw [Nat.and_one_is_mod, Nat.testBit_to_div_mod, Nat.shiftRight_eq_div_pow]
  rcases Nat.mod_two_eq_zero_or_one (m / 2 ^ i) with h | h <;> simp [h]

theorem slice_pixel_eq (lo hi x : Nat) :
    ((lo >>> x) &&& 1) ||| (((hi >>> x) &&& 1) <<< 1) =
      (lo.testBit x).toNat + 2 * (hi.testBit x).toNat := by
  rw [shiftRight_and_one_eq, shiftRight_and_one_eq]
  cases lo.testBit x <;> cases hi.testBit x <;> rfl

theorem slice_pixel_le_three (lo hi x : Nat) :
    ((lo >>> x) &&& 1) ||| (((hi >>> x) &&& 1) <<< 1) ≤ 3 := by
  rw [slice_pixel_eq]
  cases lo.testBit x <;> cases hi.testBit x <;> decide

theorem decode_character_slice_mem_le (lo hi : Nat) :
    ∀ p ∈ decode_character_slice lo hi, p ≤ 3 := by
  intro p hp
  unfold decode_character_slice at hp
  rw [List.mem_reverse, decodeSliceLoop_eq_map, List.mem_map] at hp
  obtain ⟨x, -, rfl⟩ := hp
  exact slice_pixel_le_three _ _ _

theorem decode_character_slice_getD (lo hi x : Nat) (hx : x < 8) :
    (decode_character_slice lo hi).getD x 0 =
      (lo.testBit (7 - x)).toNat + 2 * (hi.testBit (7 - x)).toNat := by
  have hx' : x < (decodeSliceLoop CHAR_WIDTH lo hi).reverse.length := by
    rw [List.length_reverse, decodeSliceLoop_length]; exact hx
  unfold decode_character_slice
  rw [List.getD_eq_getElem _ _ hx', List.getElem_reverse]
  simp only [decodeSliceLoop_length, decodeSliceLoop_eq_map, List.getElem_map,
    List.getElem_range, slice_pixel_eq, List.length_map, List.length_range]
  have h71 : CHAR_WIDTH - 1 - x = 7 - x := by
    show 8 - 1 - x = 7 - x
    omega
  rw [h71]

/-- C1: for every pair of bytes in [0,255], `decode_character_slice` returns
exactly 8 pixel values in [0,3] in left-to-right order, the pixel at
position x being bit (7-x) of `loByte` plus bit (7-x) of `hiByte` shifted
left by 1; the four constant byte pairs decode to constant rows and
loByte = 0x80, hiByte = 0x00 decodes to [1,0,0,0,0,0,0,0]. -/
theorem claim_C1 (loByte hiByte : Nat)
    (hlo : loByte ≤ 255) (hhi : hiByte ≤ 255) :
    (decode_character_slice loByte hiByte).length = 8 ∧
    (∀ p ∈ decode_character_slice loByte hiByte, p ≤ 3) ∧
    (∀ x : Nat, x < 8 →
      (decode_character_slice loByte hiByte).getD x 0 =
        (loByte.testBit (7 - x)).toNat + 2 * (hiByte.testBit (7 - x)).toNat) ∧
    decode_character_slice 0x00 0x00 = [0, 0, 0, 0, 0, 0, 0, 0] ∧
    decode_character_slice 0xFF 0x00 = [1, 1, 1, 1, 1, 1, 1, 1] ∧
    decode_character_slice 0x00 0xFF = [2, 2, 2, 2, 2, 2, 2, 2] ∧
    decode_character_slice 0xFF 0xFF = [3, 3, 3, 3, 3, 3, 3, 3] ∧
    decode_character_slice 0x80 0x00 = [1, 0, 0, 0, 0, 0, 0, 0] :=
  ⟨decode_character_slice_length _ _, decode_character_slice_mem_le _ _,
    fun x hx => decode_character_slice_getD _ _ x hx,
    by decide, by decide, by decide, by decide, by decide⟩

/-- Witness for C1 at loByte = 0x80, hiByte = 0x00. -/
theorem claim_C1_witness :
    (decode_character_slice 0x80 0x00).length = 8 ∧
    (∀ p ∈ decode_character_slice 0x80 0x00, p ≤ 3) ∧
    (∀ x : Nat, x < 8 →
      (decode_character_slice 0x80 0x00).getD x 0 =
        ((0x80).testBit (7 - x)).toNat + 2 * ((0x00).testBit (7 - x)).toNat) ∧
    decode_character_slice 0x00 0x00 = [0, 0, 0, 0, 0, 0, 0, 0] ∧
    decode_character_slice 0xFF 0x00 = [1, 1, 1, 1, 1, 1, 1, 1] ∧
    decode_character_slice 0x00 0xFF = [2, 2, 2, 2, 2, 2, 2, 2] ∧
    decode_character_slice 0xFF 0xFF = [3, 3, 3, 3, 3, 3, 3, 3] ∧
    decode_character_slice 0x80 0x00 = [1, 0, 0, 0, 0, 0, 0, 0] :=
  claim_C1 0x80 0x00 (by decide) (by decide)

theorem generate_character_rows_spec (k : Nat) : ∀ source : List Nat,
    source.length = 256 * k →
    (generate_character_rows source).length = k ∧
    (∀ chunk ∈ generate_character_rows source, chunk.length = 256) ∧
    (∀ s : Nat, s < k →
      (generate_character_rows source)[s]? =
        some ((source.drop (256 * s)).take 256)) := by
  induction k with
  | zero =>
      intro source hlen
      have hnil : source = [] := List.eq_nil_of_length_eq_zero (by omega)
      rw [generate_character_rows, if_pos hnil]
      exact ⟨rfl, by simp, fun s hs => absurd hs (Nat.not_lt_zero s)⟩
  | succ k ih =>
      intro source hlen
      have hne : source ≠ [] := by
        intro h
        rw [h] at hlen
        simp at hlen
      have h256 : CHARS_PER_ROW * BYTES_PER_CHAR = 256 := rfl
      have hdlen : (source.drop 256).length = 256 * k := by
        rw [List.length_drop]
        omega
      obtain ⟨ihl, ihc, ihg⟩ := ih (source.drop 256) hdlen
      rw [generate_character_rows, if_neg hne, h256]
      refine ⟨by simp [ihl], ?_, ?_⟩
      · intro chunk hchunk
        rcases List.mem_cons.mp hchunk with h | h
        · rw [h, List.length_take]
          omega
        · exact ihc chunk h
      · intro s hs
        cases s with
        | zero =>
            simp
        | succ s' =>
            rw [List.getElem?_cons_succ, ihg s' (by omega), List.drop_drop]
            have harith : 256 + 256 * s' = 256 * (s' + 1) := by ring
            rw [harith]

theorem decode_slice_at_length (chrData : List Nat) (pixelY charX : Nat) :
    (decode_slice_at chrData pixelY charX).length = 8 :=
  decode_character_slice_length _ _

theorem chunk_pixel_rows_length (chrData : List Nat) :
    (chunk_pixel_rows chrData).length = 8 := by
  simp [chunk_pixel_rows, CHAR_HEIGHT]

theorem chunk_pixel_rows_row_length (chrData : List Nat) :
    ∀ row ∈ chunk_pixel_rows chrData, row.length = 128 := by
  intro row hrow
  simp only [chunk_pixel_rows, List.mem_map] at hrow
  obtain ⟨y, -, rfl⟩ := hrow
  rw [List.length_flatMap]
  have hconst : List.map (List.length ∘ fun charX => decode_slice_at chrData y charX)
      (List.range CHARS_PER_ROW) = List.replicate 16 8 := by
    refine List.eq_replicate_iff.mpr ⟨by simp [CHARS_PER_ROW], ?_⟩
    intro b hb
    rw [List.mem_map] at hb
    obtain ⟨c, -, rfl⟩ := hb
    exact decode_slice_at_length _ _ _
  rw [hconst, List.sum_replicate, smul_eq_mul]

theorem generate_pixel_rows_length (source : List Nat) :
    (generate_pixel_rows source).length =
      8 * (generate_character_rows source).length := by
  rw [generate_pixel_rows, List.length_flatMap]
  have hconst : List.map (List.length ∘ chunk_pixel_rows)
      (generate_character_rows source) =
      List.replicate (generate_character_rows source).length 8 := by
    refine List.eq_replicate_iff.mpr ⟨by simp, ?_⟩
    intro b hb
    rw [List.mem_map] at hb
    obtain ⟨c, -, rfl⟩ := hb
    exact chunk_pixel_rows_length c
  rw [hconst, List.sum_replicate, smul_eq_mul]
  ring

theorem flatMap_getElem?_const {α β : Type} (n : Nat) (f : α → List β) :
    ∀ (l : List α) (s y : Nat) (a : α),
    (∀ b ∈ l, (f b).length = n) → l[s]? = some a → y < n →
    (l.flatMap f)[n * s + y]? = (f a)[y]? := by
  intro l
  induction l with
  | nil =>
      intro s y a _ ha _
      simp at ha
  | cons hd tl ih =>
      intro s y a hlen ha hy
      have hhd : (f hd).length = n := hlen hd (List.mem_cons_self hd tl)
      rw [List.flatMap_cons, List.getElem?_append]
      cases s with
      | zero =>
          have haeq : a = hd := by
            rw [List.getElem?_cons_zero] at ha
            exact (Option.some_inj.mp ha).symm
          rw [if_pos (by omega : n * 0 + y < (f hd).length)]
          rw [haeq, Nat.mul_zero, Nat.zero_add]
      | succ s' =>
          have hge : ¬ (n * (s' + 1) + y < (f hd).length) := by
            rw [hhd, Nat.mul_succ]
            omega
          rw [if_neg hge]
          have hidx : n * (s' + 1) + y - (f hd).length = n * s' + y := by
            rw [hhd, Nat.mul_succ]
            omega
          rw [hidx]
          rw [List.getElem?_cons_succ] at ha
          exact ih s' y a (fun b hb => hlen b (List.mem_cons_of_mem hd hb)) ha hy

/-- C2: for a source whose size is a positive multiple of 256, the scanline
at index `8 * s + pixelY` is the concatenation over `charX` in 0..15 of the
slice decoded from bytes `charX * 16 + pixelY` and `charX * 16 + pixelY + 8`
of chunk `s`, chunks and sub-rows both ascending (raster order). -/
theorem claim_C2 (source : List Nat) (k : Nat) (hlen : source.length = 256 * k)
    (hk : 0 < k) (s pixelY : Nat) (hs : s < k) (hy : pixelY < 8) :
    (generate_pixel_rows source)[8 * s + pixelY]? =
      some ((List.range 16).flatMap fun charX =>
        decode_character_slice
          (((source.drop (256 * s)).take 256).getD (charX * 16 + pixelY) 0)
          (((source.drop (256 * s)).take 256).getD (charX * 16 + pixelY + 8) 0)) := by
  obtain ⟨-, -, hg⟩ := generate_character_rows_spec k source hlen
  have hchunk := hg s hs
  rw [generate_pixel_rows,
    flatMap_getElem?_const 8 chunk_pixel_rows (generate_character_rows source)
      s pixelY _ (fun b _ => chunk_pixel_rows_length b) hchunk hy]
  rw [chunk_pixel_rows, List.getElem?_map,
    List.getElem?_range (by exact hy : pixelY < CHAR_HEIGHT)]
  rw [Option.map_some']
  rfl

/-- Witness for C2: a 256-byte all-zero source, strip 0, sub-row 0. -/
theorem claim_C2_witness :
    (generate_pixel_rows (List.replicate 256 0))[8 * 0 + 0]? =
      some ((List.range 16).flatMap fun charX =>
        decode_character_slice
          ((((List.replicate 256 0).drop (256 * 0)).take 256).getD
            (charX * 16 + 0) 0)
          ((((List.replicate 256 0).drop (256 * 0)).take 256).getD
            (charX * 16 + 0 + 8) 0)) :=
  claim_C2 (List.replicate 256 0) 1 (by rw [List.length_replicate, Nat.mul_one])
    (by decide) 0 0 (by decide) (by decide)

/-- C3: for a source whose size is a positive multiple of 256, every
scanline has exactly 128 pixels and the number of scanlines is
`8 * (size / 256)`. -/
theorem claim_C3 (source : List Nat) (k : Nat) (hlen : source.length = 256 * k)
    (hk : 0 < k) :
    (∀ row ∈ generate_pixel_rows source, row.length = 128) ∧
    (generate_pixel_rows source).length = 8 * (source.length / 256) := by
  constructor
  · intro row hrow
    rw [generate_pixel_rows, List.mem_flatMap] at hrow
    obtain ⟨chunk, -, hr⟩ := hrow
    exact chunk_pixel_rows_row_length chunk row hr
  · rw [generate_pixel_rows_length,
      (generate_character_rows_spec k source hlen).1, hlen]
    congr 1
    omega

/-- Witness for C3 at the 256-byte all-zero source. -/
theorem claim_C3_witness :
    (∀ row ∈ generate_pixel_rows (List.replicate 256 0), row.length = 128) ∧
    (generate_pixel_rows (List.replicate 256 0)).length =
      8 * ((List.replicate 256 0 : List Nat).length / 256) :=
  claim_C3 (List.replicate 256 0) 1 (by rw [List.length_replicate, Nat.mul_one])
    (by decide)

/-- C8: under the validated size precondition every chunk yielded by the
reader is exactly 256 bytes and every index `charX * 16 + pixelY` and
`charX * 16 + pixelY + 8` used during decoding is within the chunk's bounds,
so the out-of-bounds branch is unreachable. -/
theorem claim_C8 (source : List Nat) (k : Nat) (hlen : source.length = 256 * k)
    (hk : 0 < k) :
    ∀ chunk ∈ generate_character_rows source,
      chunk.length = 256 ∧
      ∀ charX pixelY : Nat, charX < 16 → pixelY < 8 →
        charX * BYTES_PER_CHAR + pixelY < chunk.length ∧
        charX * BYTES_PER_CHAR + pixelY + 8 < chunk.length := by
  intro chunk hchunk
  have hclen := (generate_character_rows_spec k source hlen).2.1 chunk hchunk
  refine ⟨hclen, ?_⟩
  intro charX pixelY hx hy
  have h16 : BYTES_PER_CHAR = 16 := rfl
  rw [hclen, h16]
  omega

/-- Witness for C8: the single chunk of the 256-byte all-zero source, at
the largest indices charX = 15, pixelY = 7. -/
theorem claim_C8_witness :
    ((List.replicate 256 (0 : Nat)).take 256).length = 256 ∧
    15 * BYTES_PER_CHAR + 7 <
      ((List.replicate 256 (0 : Nat)).take 256).length ∧
    15 * BYTES_PER_CHAR + 7 + 8 <
      ((List.replicate 256 (0 : Nat)).take 256).length := by
  have hlen : (List.replicate 256 (0 : Nat)).length = 256 * 1 := by
    rw [List.length_replicate, Nat.mul_one]
  have hget := (generate_character_rows_spec 1 (List.replicate 256 0) hlen).2.2
    0 (by decide)
  rw [Nat.mul_zero, List.drop_zero] at hget
  have hmem : (List.replicate 256 (0 : Nat)).take 256 ∈
      generate_character_rows (List.replicate 256 0) :=
    List.getElem?_mem hget
  have h := claim_C8 (List.replicate 256 0) 1 hlen (by decide) _ hmem
  exact ⟨h.1, (h.2 15 7 (by decide) (by decide)).1,
    (h.2 15 7 (by decide) (by decide)).2⟩

/-- Counterexample to C4: with the default gray CLI palette and a 256-byte
source, the palette handed to `png.Writer` is the CLI palette itself, not
the hardcoded red/orange/white ramp of the dead local variable. -/
theorem claim_C4_counterexample :
    (main_writer_args [(0, 0, 0), (85, 85, 85), (170, 170, 170),
        (255, 255, 255)] 256).palette =
      [(0, 0, 0), (85, 85, 85), (170, 170, 170), (255, 255, 255)] ∧
    (main_writer_args [(0, 0, 0), (85, 85, 85), (170, 170, 170),
        (255, 255, 255)] 256).palette ≠ main_local_palette := by
  refine ⟨rfl, ?_⟩
  decide

/-- C4 as amended: `main` does define a hardcoded red/orange/white ramp, but
only as a local variable that is never used; the palette supplied to
`png.Writer` is always the CLI-supplied palette, which therefore does
determine the palette metadata of the written image. -/
theorem claim_C4_amended (settingsPalette : List RGB) (sourceSize : Nat) :
    (main_writer_args settingsPalette sourceSize).palette = settingsPalette ∧
    main_local_palette =
      [(0, 0, 0), (255, 0, 0), (255, 128, 0), (255, 255, 255)] :=
  ⟨rfl, rfl⟩

theorem validate_size_error_iff (size : Nat) :
    (∃ e, validate_size size = Except.error e) ↔
      size = 0 ∨ size % 256 ≠ 0 := by
  simp only [validate_size, CHARS_PER_ROW, BYTES_PER_CHAR]
  split_ifs with h
  · constructor
    · intro _
      omega
    · intro _
      exact ⟨_, rfl⟩
  · push_neg at h
    constructor
    · rintro ⟨e, he⟩
      exact he.elim
    · intro hcon
      exfalso
      omega

theorem run_decode_error_iff (src : List Nat) (pal : List RGB) :
    (∃ e, run_decode src pal = Except.error e) ↔
      (∃ e, validate_size src.length = Except.error e) := by
  rcases h : validate_size src.length with e | k <;>
    simp [run_decode, h]

/-- C5: the pipeline fails with the fatal size error, producing no image at
all, exactly when the source size is zero or not a multiple of 256 (in
particular sizes 0 and 255 are rejected); a 256-byte source is accepted and
yields exactly one strip, 8 scanlines of 128 pixels each, and a 128 × 8
image. -/
theorem claim_C5 (source : List Nat) (palette : List RGB)
    (hsource : source.length = 256) :
    (∀ (src : List Nat) (pal : List RGB),
      (∃ e, run_decode src pal = Except.error e) ↔
        (src.length = 0 ∨ src.length % 256 ≠ 0)) ∧
    (∃ e, validate_size 0 = Except.error e) ∧
    (∃ e, validate_size 255 = Except.error e) ∧
    (∃ img : OutputImage, run_decode source palette = Except.ok img ∧
      img.width = 128 ∧ img.height = 8 ∧ img.bitdepth = 2 ∧
      img.rows.length = 8 ∧ (∀ row ∈ img.rows, row.length = 128) ∧
      (generate_character_rows source).length = 1) := by
  refine ⟨?_, ?_, ?_, ?_⟩
  · intro src pal
    rw [run_decode_error_iff]
    exact validate_size_error_iff src.length
  · exact (validate_size_error_iff 0).mpr (Or.inl rfl)
  · exact (validate_size_error_iff 255).mpr (Or.inr (by decide))
  · have hval : validate_size source.length = Except.ok 1 := by
      rw [hsource]
      rfl
    have hlen : source.length = 256 * 1 := by omega
    have hrun : run_decode source palette = Except.ok
        { width := CHARS_PER_ROW * CHAR_WIDTH
          height := 1 * CHAR_HEIGHT
          bitdepth := 2
          palette := palette
          rows := generate_pixel_rows source } := by
      rw [run_decode, hval]
    refine ⟨_, hrun, rfl, rfl, rfl, ?_, ?_, ?_⟩
    · show (generate_pixel_rows source).length = 8
      rw [generate_pixel_rows_length,
        (generate_character_rows_spec 1 source hlen).1]
    · show ∀ row ∈ generate_pixel_rows source, row.length = 128
      intro row hrow
      rw [generate_pixel_rows, List.mem_flatMap] at hrow
      obtain ⟨chunk, -, hr⟩ := hrow
      exact chunk_pixel_rows_row_length chunk row hr
    · exact (generate_character_rows_spec 1 source hlen).1

/-- Witness for C5 at the 256-byte all-zero source and the default gray
palette. -/
theorem claim_C5_witness :
    (∀ (src : List Nat) (pal : List RGB),
      (∃ e, run_decode src pal = Except.error e) ↔
        (src.length = 0 ∨ src.length % 256 ≠ 0)) ∧
    (∃ e, validate_size 0 = Except.error e) ∧
    (∃ e, validate_size 255 = Except.error e) ∧
    (∃ img : OutputImage,
      run_decode (List.replicate 256 0)
          [(0, 0, 0), (85, 85, 85), (170, 170, 170), (255, 255, 255)] =
        Except.ok img ∧
      img.width = 128 ∧ img.height = 8 ∧ img.bitdepth = 2 ∧
      img.rows.length = 8 ∧ (∀ row ∈ img.rows, row.length = 128) ∧
      (generate_character_rows (List.replicate 256 0)).length = 1) :=
  claim_C5 (List.replicate 256 0)
    [(0, 0, 0), (85, 85, 85), (170, 170, 170), (255, 255, 255)]
    (by rw [List.length_replicate])

/-- C9: decoding is deterministic — two runs of the pipeline on equal source
bytes and equal palettes produce equal output images (the pipeline is a pure
function of the source bytes and the palette). -/
theorem claim_C9 (source1 source2 : List Nat) (palette1 palette2 : List RGB)
    (hs : source1 = source2) (hp : palette1 = palette2) :
    run_decode source1 palette1 = run_decode source2 palette2 := by
  rw [hs, hp]

/-- Witness for C9: two runs on the 256-byte all-zero source with the
default gray palette. -/
theorem claim_C9_witness :
    run_decode (List.replicate 256 0)
        [(0, 0, 0), (85, 85, 85), (170, 170, 170), (255, 255, 255)] =
      run_decode (List.replicate 256 0)
        [(0, 0, 0), (85, 85, 85), (170, 170, 170), (255, 255, 255)] :=
  claim_C9 _ _ _ _ rfl rfl

/-- Counterexample to C7: on a 256-byte stream the reader's cursor trace is
0, 256, 0, 256 — the initial `seek(0, 2)` / `seek(0)` pair used to measure
the stream size moves the cursor backward, so the cursor is not monotone
over every step of the reader's execution. -/
theorem claim_C7_counterexample :
    ¬ List.Chain' (fun a b => a ≤ b) (reader_cursor_trace 256) := by
  have h : reader_cursor_trace 256 = [0, 256, 0, 256] := by
    rw [reader_cursor_trace, readLoopPositions]
    norm_num [CHARS_PER_ROW, BYTES_PER_CHAR]
    rw [readLoopPositions]
    norm_num
  rw [h]
  simp only [List.chain'_cons, List.chain'_singleton]
  omega

theorem readLoopPositions_chain (size : Nat) : ∀ fuel pos : Nat,
    size - pos ≤ fuel →
    List.Chain' (fun a b => a ≤ b) (pos :: readLoopPositions size pos) := by
  intro fuel
  induction fuel with
  | zero =>
      intro pos hle
      rw [readLoopPositions, if_neg (by omega)]
      exact List.chain'_singleton pos
  | succ fuel ih =>
      intro pos hle
      by_cases hpos : pos < size
      · rw [readLoopPositions, if_pos hpos]
        have h256 : CHARS_PER_ROW * BYTES_PER_CHAR = 256 := rfl
        rw [h256]
        rw [List.chain'_cons]
        refine ⟨by omega, ?_⟩
        exact ih (min (pos + 256) size) (by omega)
      · rw [readLoopPositions, if_neg hpos]
        exact List.chain'_singleton pos

/-- C7 as amended: during the chunk-reading loop the cursor only advances
(never moves backward), but before the loop `generate_character_rows`
measures the stream size by seeking to the end and back to offset 0, which
moves the cursor backward once; the full trace is 0, size, 0 followed by the
monotonically increasing read positions. -/
theorem claim_C7_amended (size : Nat) :
    List.Chain' (fun a b => a ≤ b) (0 :: readLoopPositions size 0) ∧
    reader_cursor_trace size = 0 :: size :: 0 :: readLoopPositions size 0 :=
  ⟨readLoopPositions_chain size size 0 (by omega), rfl⟩

theorem runBufOps_append {α : Type} (l1 l2 : List BufOp) : ∀ h : PyHeap α,
    runBufOps (l1 ++ l2) h =
      ((runBufOps l2 (runBufOps l1 h).1).1,
        (runBufOps l1 h).2 ++ (runBufOps l2 (runBufOps l1 h).1).2) := by
  induction l1 with
  | nil => intro h; rfl
  | cons op ops ih =>
      intro h
      cases op with
      | clear =>
          rw [List.cons_append]
          simp only [runBufOps]
          exact ih _
      | extend s =>
          rw [List.cons_append]
          simp only [runBufOps]
          exact ih _
      | yieldRow =>
          rw [List.cons_append]
          simp only [runBufOps]
          rw [ih h]
          simp

theorem runBufOps_extends {α : Type} (slices : List (List Nat)) :
    ∀ h : PyHeap α,
    runBufOps (slices.map BufOp.extend) h =
      ({ h with pixelsBuf := h.pixelsBuf ++ slices.flatten }, []) := by
  induction slices with
  | nil => intro h; simp [runBufOps]
  | cons s rest ih =>
      intro h
      rw [List.map_cons]
      simp only [runBufOps]
      rw [ih]
      simp

theorem runBufOps_rowOps {α : Type} (slices : List (List Nat)) (h : PyHeap α) :
    runBufOps (rowOps slices) h =
      ({ h with pixelsBuf := slices.flatten }, [slices.flatten]) := by
  rw [rowOps]
  simp only [runBufOps]
  rw [List.append_eq, runBufOps_append, runBufOps_extends]
  simp [runBufOps]

theorem runBufOps_rows {α : Type} (rs : List (List (List Nat))) :
    ∀ h : PyHeap α,
    runBufOps (rs.flatMap rowOps) h =
      ({ pixelsBuf := (rs.map List.flatten).getLastD h.pixelsBuf,
         rest := h.rest }, rs.map List.flatten) := by
  induction rs with
  | nil =>
      intro h
      simp only [List.flatMap_nil, List.map_nil, List.getLastD_nil, runBufOps]
  | cons r rest ih =>
      intro h
      rw [List.flatMap_cons, runBufOps_append, runBufOps_rowOps, ih]
      rw [List.map_cons, List.getLastD_cons]
      rfl

theorem generate_pixel_rows_ops_eq (source : List Nat) :
    generate_pixel_rows_ops source = (rows_slices source).flatMap rowOps := by
  simp only [generate_pixel_rows_ops, rows_slices, List.flatMap_assoc,
    List.flatMap_map, rowOps, List.map_map, Function.comp_def]

theorem generate_pixel_rows_eq_rows_slices (source : List Nat) :
    generate_pixel_rows source = (rows_slices source).map List.flatten := by
  rw [generate_pixel_rows, rows_slices, List.map_flatMap]
  refine congrArg (List.flatMap (generate_character_rows source))
    (funext fun chrData => ?_)
  rw [chunk_pixel_rows, List.map_map]
  refine congrArg (fun g => List.map g (List.range CHAR_HEIGHT))
    (funext fun pixelY => ?_)
  simp [List.flatMap_def, Function.comp_def]

/-- C10: every scanline yielded by `generate_pixel_rows` is the one `pixels`
list object, cleared and refilled in place before each yield.  Running the
generator's mutation trace on any heap (a) records exactly the scanlines of
`generate_pixel_rows` as the buffer contents at the yields — so only a
consumer that fully processes each yielded scanline before requesting the
next sees the correct image; (b) leaves every object other than the shared
buffer unchanged; and (c) leaves the shared buffer holding the most recently
produced scanline — so a consumer that retains any previously yielded
scanline afterwards observes the last scanline in its place. -/
theorem claim_C10 {α : Type} (source : List Nat) (h0 : PyHeap α) :
    (runBufOps (generate_pixel_rows_ops source) h0).2 =
      generate_pixel_rows source ∧
    (runBufOps (generate_pixel_rows_ops source) h0).1.rest = h0.rest ∧
    (runBufOps (generate_pixel_rows_ops source) h0).1.pixelsBuf =
      (generate_pixel_rows source).getLastD h0.pixelsBuf := by
  rw [generate_pixel_rows_ops_eq, runBufOps_rows,
    generate_pixel_rows_eq_rows_slices]
  exact ⟨rfl, rfl, rfl⟩

theorem hexDigit_toNat_range (c : Char) (h : isHexDigitChar c = true) :
    (48 ≤ c.toNat ∧ c.toNat ≤ 57) ∨ (97 ≤ c.toNat ∧ c.toNat ≤ 102) ∨
      (65 ≤ c.toNat ∧ c.toNat ≤ 70) := by
  rw [isHexDigitChar, hexDigitVal] at h
  split_ifs at h with h1 h2 h3
  · exact Or.inl h1
  · exact Or.inr (Or.inl h2)
  · exact Or.inr (Or.inr h3)
  · simp at h

theorem hexDigit_not_space (c : Char) (h : isHexDigitChar c = true) :
    isPySpace c = false := by
  have hr := hexDigit_toNat_range c h
  rw [isPySpace]
  simp only [decide_eq_false_iff_not]
  omega

theorem hexDigit_ne (c : Char) (h : isHexDigitChar c = true) (d : Char)
    (hd : d.toNat < 48 ∨ (57 < d.toNat ∧ d.toNat < 65) ∨
      (70 < d.toNat ∧ d.toNat < 97) ∨ 102 < d.toNat) : c ≠ d := by
  intro heq
  have hr := hexDigit_toNat_range c h
  rw [heq] at hr
  omega

theorem hexDigitVal_lt (c : Char) (d : Nat) (h : hexDigitVal c = some d) :
    d < 16 := by
  rw [hexDigitVal] at h
  split_ifs at h with h1 h2 h3 <;> simp_all <;> omega

theorem dropWhile_eq_self_of_not (p : Char → Bool) (l : List Char)
    (h : ∀ c ∈ l, p c = false) : l.dropWhile p = l := by
  cases l with
  | nil => rfl
  | cons c r =>
      rw [List.dropWhile_cons, h c (List.mem_cons_self c r)]
      simp

theorem stripPySpaces_eq_self (s : List Char)
    (h : ∀ c ∈ s, isPySpace c = false) : stripPySpaces s = s := by
  rw [stripPySpaces, dropWhile_eq_self_of_not _ _ h,
    dropWhile_eq_self_of_not, List.reverse_reverse]
  intro c hc
  exact h c (List.mem_reverse.mp hc)

theorem parseHexRun_all_hex (l : List Char) : ∀ acc : Nat,
    (∀ c ∈ l, isHexDigitChar c = true) →
    ∃ v, parseHexRun acc false l = some v ∧
      v < (acc + 1) * 16 ^ l.length := by
  induction l with
  | nil =>
      intro acc _
      exact ⟨acc, rfl, by simp⟩
  | cons c r ih =>
      intro acc h
      have hc : isHexDigitChar c = true := h c (List.mem_cons_self c r)
      have hne : c ≠ '_' := hexDigit_ne c hc '_' (by decide)
      obtain ⟨d, hd⟩ : ∃ d, hexDigitVal c = some d := by
        rw [isHexDigitChar] at hc
        exact Option.isSome_iff_exists.mp hc
      have hd16 : d < 16 := hexDigitVal_lt c d hd
      obtain ⟨v, hv, hb⟩ :=
        ih (16 * acc + d) (fun x hx => h x (List.mem_cons_of_mem _ hx))
      refine ⟨v, ?_, ?_⟩
      · rw [parseHexRun, if_neg hne, hd]
        exact hv
      · rw [List.length_cons]
        calc v < (16 * acc + d + 1) * 16 ^ r.length := hb
          _ ≤ 16 * (acc + 1) * 16 ^ r.length :=
              Nat.mul_le_mul_right _ (by omega)
          _ = (acc + 1) * 16 ^ (r.length + 1) := by ring

theorem parseHexBody_all_hex (l : List Char) (hne : l ≠ [])
    (h : ∀ c ∈ l, isHexDigitChar c = true) :
    ∃ v, parseHexBody l = some v ∧ v < 16 ^ l.length := by
  cases l with
  | nil => exact absurd rfl hne
  | cons c r =>
      have hc : isHexDigitChar c = true := h c (List.mem_cons_self c r)
      obtain ⟨d, hd⟩ : ∃ d, hexDigitVal c = some d := by
        rw [isHexDigitChar] at hc
        exact Option.isSome_iff_exists.mp hc
      have hd16 : d < 16 := hexDigitVal_lt c d hd
      obtain ⟨v, hv, hb⟩ :=
        parseHexRun_all_hex r d (fun x hx => h x (List.mem_cons_of_mem _ hx))
      refine ⟨v, ?_, ?_⟩
      · rw [parseHexBody, hd]
        exact hv
      · rw [List.length_cons]
        calc v < (d + 1) * 16 ^ r.length := hb
          _ ≤ 16 * 16 ^ r.length := Nat.mul_le_mul_right _ (by omega)
          _ = 16 ^ (r.length + 1) := by ring

theorem pyIntBase16_all_hex (s : List Char) (hne : s ≠ [])
    (h : ∀ c ∈ s, isHexDigitChar c = true) :
    ∃ v : Nat, pyIntBase16 s = some (v : Int) ∧ v < 16 ^ s.length := by
  have hstrip : stripPySpaces s = s :=
    stripPySpaces_eq_self s (fun c hc => hexDigit_not_space c (h c hc))
  cases s with
  | nil => exact absurd rfl hne
  | cons c r =>
      have hc : isHexDigitChar c = true := h c (List.mem_cons_self c r)
      have hsign : splitSign (c :: r) = (1, c :: r) := by
        rw [splitSign, if_neg (hexDigit_ne c hc '+' (by decide)),
          if_neg (hexDigit_ne c hc '-' (by decide))]
      have hmarker : stripHexMarker (c :: r) = c :: r := by
        cases r with
        | nil => rfl
        | cons c1 r' =>
            rw [stripHexMarker]
            rw [if_neg]
            rintro ⟨-, h1 | h1⟩
            · exact hexDigit_ne c1 (h c1 (by simp)) 'x' (by decide) h1
            · exact hexDigit_ne c1 (h c1 (by simp)) 'X' (by decide) h1
      obtain ⟨v, hv, hb⟩ := parseHexBody_all_hex (c :: r) (by simp) h
      refine ⟨v, ?_, hb⟩
      rw [pyIntBase16]
      simp only [hstrip, hsign, hmarker, hv, Option.map_some', one_mul]
      simp

theorem int_land_255 (m : Nat) :
    Int.land (m : Int) 255 = ((m &&& 255 : Nat) : Int) := rfl

theorem decode_color_code_error_iff (s : List Char) :
    (∃ e, decode_color_code s = Except.error e) ↔
      (s.length ≠ 6 ∨ pyIntBase16 s = none) := by
  rw [decode_color_code]
  split_ifs with h
  · exact ⟨fun _ => Or.inl h, fun _ => ⟨_, rfl⟩⟩
  · push_neg at h
    rcases hp : pyIntBase16 s with - | c
    · exact ⟨fun _ => Or.inr rfl, fun _ => ⟨_, rfl⟩⟩
    · constructor
      · rintro ⟨e, he⟩
        exact Except.noConfusion he
      · rintro (h6 | hnone)
        · exact absurd h h6
        · exact Option.noConfusion hnone

/-- Counterexample to C6: the 6-character string "+0000a" is not six
hexadecimal digits, yet `decode_color_code` accepts it and returns
(0, 0, 10) — Python's `int(color, 16)` also accepts signs, surrounding
whitespace, a `0x`/`0X` prefix and underscore separators, so the error is
not raised for every non-hex-digit string. -/
theorem claim_C6_counterexample :
    ("+0000a".toList).length = 6 ∧
    (¬ ∀ c ∈ "+0000a".toList, isHexDigitChar c = true) ∧
    decode_color_code ("+0000a".toList) = Except.ok (0, 0, 10) :=
  ⟨by decide, by decide, rfl⟩

/-- C6 as amended: `decode_color_code` exits with the fatal color error iff
the string does not have length 6 or is rejected by Python's `int(_, 16)`
(which, besides pure hex-digit strings, also accepts length-6 strings with
signs, surrounding whitespace, a `0x`/`0X` prefix or underscore
separators); every string of exactly 6 hexadecimal digits is accepted and
returns an RGB triple with each component in [0,255]. -/
theorem claim_C6_amended (s : List Char) :
    ((∃ e, decode_color_code s = Except.error e) ↔
      (s.length ≠ 6 ∨ pyIntBase16 s = none)) ∧
    (s.length = 6 → (∀ c ∈ s, isHexDigitChar c = true) →
      ∃ r g b : Int, decode_color_code s = Except.ok (r, g, b) ∧
        0 ≤ r ∧ r ≤ 255 ∧ 0 ≤ g ∧ g ≤ 255 ∧ 0 ≤ b ∧ b ≤ 255) := by
  refine ⟨decode_color_code_error_iff s, ?_⟩
  intro h6 hhex
  have hne : s ≠ [] := by
    intro hnil
    rw [hnil] at h6
    simp at h6
  obtain ⟨v, hv, hb⟩ := pyIntBase16_all_hex s hne hhex
  rw [h6] at hb
  have hv24 : v < 16777216 := by
    calc v < 16 ^ 6 := hb
      _ = 16777216 := by norm_num
  have hshift16 : ((v : Int) >>> (16 : Int)) = ((v >>> 16 : Nat) : Int) :=
    Int.shiftRight_coe_nat v 16
  have hshift8 : ((v : Int) >>> (8 : Int)) = ((v >>> 8 : Nat) : Int) :=
    Int.shiftRight_coe_nat v 8
  have hred : v >>> 16 ≤ 255 := by
    rw [Nat.shiftRight_eq_div_pow]
    have : v / 2 ^ 16 < 256 := by
      rw [Nat.div_lt_iff_lt_mul (by norm_num)]
      omega
    omega
  refine ⟨(v : Int) >>> (16 : Int), Int.land ((v : Int) >>> (8 : Int)) 0xff,
    Int.land (v : Int) 0xff, ?_, ?_, ?_, ?_, ?_, ?_, ?_⟩
  · rw [decode_color_code, if_neg (by omega), hv]
  · rw [hshift16]
    exact Int.ofNat_nonneg _
  · rw [hshift16]
    exact_mod_cast hred
  · rw [hshift8, int_land_255]
    exact Int.ofNat_nonneg _
  · rw [hshift8, int_land_255]
    have : (v >>> 8) &&& 255 ≤ 255 := Nat.and_le_right
    exact_mod_cast this
  · rw [int_land_255]
    exact Int.ofNat_nonneg _
  · rw [int_land_255]
    have : v &&& 255 ≤ 255 := Nat.and_le_right
    exact_mod_cast this

/-- Witness for the amended C6 at the 6-hex-digit string "1a2B3f". -/
theorem claim_C6_amended_witness :
    ∃ r g b : Int,
      decode_color_code ("1a2B3f".toList) = Except.ok (r, g, b) ∧
        0 ≤ r ∧ r ≤ 255 ∧ 0 ≤ g ∧ g ≤ 255 ∧ 0 ≤ b ∧ b ≤ 255 :=
  (claim_C6_amended ("1a2B3f".toList)).2 (by decide) (by decide)

end NesChr
